import Mathlib

/-!
Verification of the `reef` repository's scanner (`src/lexer.rs`) and
environment-diff collaborator (`src/env_diff.rs`, `src/passthrough.rs`).

The embedding is byte-level: Rust `&str` / `&[u8]` values are modelled as
`List Nat` of their UTF-8 bytes.  Rust's `String::push(c : char)` appends the
UTF-8 encoding of the char, which matters because both escape functions do
`result.push(b as char)` on individual bytes; `utf8Byte` models that
re-encoding (all bytes are < 0x100, hence at most two UTF-8 bytes).
-/

namespace Reef

/-- UTF-8 encoding of the Unicode code point `b` for `b < 0x800`; this covers
every value a Rust `u8 as char` cast can produce. -/
def utf8Byte (b : Nat) : List Nat :=
  if b < 128 then [b] else [192 + b / 64, 128 + b % 64]

/-- Bytes of an ASCII string literal (for ASCII text the UTF-8 bytes are the
code points themselves). -/
def asciiBytes (s : String) : List Nat :=
  s.data.map Char.toNat

/-! ## Scanner (`src/lexer.rs`)

`Lexer` holds the shared byte buffer (`src` and `input` in the Rust struct are
two views of the same bytes, collapsed here) and the cursor.  The integer
cursor is the only mutable state of the Rust struct. -/

structure Lexer where
  src : List Nat
  pos : Nat
deriving DecidableEq, Repr

/-- Error produced on invalid input: a byte offset plus a static message. -/
structure ParseError where
  pos : Nat
  msg : String
deriving DecidableEq, Repr

namespace Lexer

/-- `is_eof`. -/
def is_eof (l : Lexer) : Bool :=
  l.src.length ≤ l.pos

/-- `peek`: current byte, or the sentinel 0 at end-of-input. -/
def peek (l : Lexer) : Nat :=
  if h : l.pos < l.src.length then l.src.get ⟨l.pos, h⟩ else 0

/-- `peek_at`: byte at `pos + offset`, or the sentinel 0 past end-of-input. -/
def peek_at (l : Lexer) (offset : Nat) : Nat :=
  if h : l.pos + offset < l.src.length then l.src.get ⟨l.pos + offset, h⟩ else 0

/-- Total slice helper: bytes of the buffer from `a` (inclusive) to `b`
(exclusive); used where the Rust code indexes `&input[a..b]` under
upheld bounds invariants. -/
def sliceBytes (src : List Nat) (a b : Nat) : List Nat :=
  (src.drop a).take (b - a)

/-- `slice(start)` = `&input[start..pos]`: Rust panics when `start > pos` or
`pos > len`, modelled as `none`. -/
def slice (l : Lexer) (start : Nat) : Option (List Nat) :=
  if start ≤ l.pos ∧ l.pos ≤ l.src.length then some (sliceBytes l.src start l.pos) else none

/-- `slice_range(start, end)` = `&input[start..end]`, again `none` where Rust
indexing panics. -/
def slice_range (l : Lexer) (start e : Nat) : Option (List Nat) :=
  if start ≤ e ∧ e ≤ l.src.length then some (sliceBytes l.src start e) else none

/-- `remaining()` = `&input[pos..]`: panics (`none`) when the cursor has been
advanced past the end of the buffer. -/
def remaining (l : Lexer) : Option (List Nat) :=
  if l.pos ≤ l.src.length then some (l.src.drop l.pos) else none

/-- `set_pos`: set the cursor directly (backtracking). -/
def set_pos (l : Lexer) (p : Nat) : Lexer :=
  { l with pos := p }

/-- `bump`: unconditional increment. -/
def bump (l : Lexer) : Lexer :=
  { l with pos := l.pos + 1 }

/-- `bump_n`: unconditional advance by `n`. -/
def bump_n (l : Lexer) (n : Nat) : Lexer :=
  { l with pos := l.pos + n }

/-- `eat`: advance iff the current byte (via `peek`, hence sentinel 0 at EOF)
equals `b`. -/
def eat (l : Lexer) (b : Nat) : Bool × Lexer :=
  if l.peek = b then (true, { l with pos := l.pos + 1 }) else (false, l)

/-- `eat_str`: advance over `s` iff the upcoming bytes match it exactly. -/
def eat_str (l : Lexer) (s : List Nat) : Bool × Lexer :=
  if l.pos + s.length ≤ l.src.length ∧ (l.src.drop l.pos).take s.length = s then
    (true, { l with pos := l.pos + s.length })
  else (false, l)

/-- Loop of `skip_blanks`: advance while the current byte is space or tab. -/
def skip_blanks_go (src : List Nat) (pos : Nat) : Nat :=
  if h : pos < src.length then
    if src.get ⟨pos, h⟩ = 32 ∨ src.get ⟨pos, h⟩ = 9 then skip_blanks_go src (pos + 1) else pos
  else pos
termination_by src.length - pos
decreasing_by simp_wf; omega

/-- `skip_blanks`. -/
def skip_blanks (l : Lexer) : Lexer :=
  { l with pos := skip_blanks_go l.src l.pos }

/-- Loop of `skip_comment`: advance while in bounds and not at a newline. -/
def skip_comment_go (src : List Nat) (pos : Nat) : Nat :=
  if h : pos < src.length then
    if src.get ⟨pos, h⟩ ≠ 10 then skip_comment_go src (pos + 1) else pos
  else pos
termination_by src.length - pos
decreasing_by simp_wf; omega

/-- `skip_comment`: only acts when the current byte is `#` (35). -/
def skip_comment (l : Lexer) : Lexer :=
  if l.peek = 35 then { l with pos := skip_comment_go l.src l.pos } else l

/-- ASCII letter or underscore: the start class of `read_name`. -/
def isNameStart (b : Nat) : Bool :=
  (65 ≤ b ∧ b ≤ 90) ∨ (97 ≤ b ∧ b ≤ 122) ∨ b = 95

/-- ASCII digit. -/
def isDigitB (b : Nat) : Bool :=
  48 ≤ b ∧ b ≤ 57

/-- ASCII alphanumeric or underscore: the continuation class of `read_name`. -/
def isNameCont (b : Nat) : Bool :=
  isNameStart b || isDigitB b

/-- Continuation loop of `read_name`. -/
def read_name_go (src : List Nat) (pos : Nat) : Nat :=
  if h : pos < src.length then
    if isNameCont (src.get ⟨pos, h⟩) then read_name_go src (pos + 1) else pos
  else pos
termination_by src.length - pos
decreasing_by simp_wf; omega

/-- `read_name`: `[a-zA-Z_][a-zA-Z_0-9]*`, empty slice and unmoved cursor on
no match. -/
def read_name (l : Lexer) : List Nat × Lexer :=
  if h : l.pos < l.src.length then
    if isNameStart (l.src.get ⟨l.pos, h⟩) then
      let p := read_name_go l.src (l.pos + 1)
      (sliceBytes l.src l.pos p, { l with pos := p })
    else (sliceBytes l.src l.pos l.pos, l)
  else (sliceBytes l.src l.pos l.pos, l)

/-- Loop of `read_number`. -/
def read_number_go (src : List Nat) (pos : Nat) : Nat :=
  if h : pos < src.length then
    if isDigitB (src.get ⟨pos, h⟩) then read_number_go src (pos + 1) else pos
  else pos
termination_by src.length - pos
decreasing_by simp_wf; omega

/-- `read_number`: `[0-9]+`, empty slice on no digits. -/
def read_number (l : Lexer) : List Nat × Lexer :=
  let p := read_number_go l.src l.pos
  (sliceBytes l.src l.pos p, { l with pos := p })

/-- Loop of `scan_squote`: `start` is the saved content start, `pos` the moving
cursor.  On the closing quote (39) returns the content and the position one
past it; at end-of-input fails with the cursor's final value as offset. -/
def scan_squote_go (src : List Nat) (start pos : Nat) :
    Except ParseError (List Nat × Nat) :=
  if h : pos < src.length then
    if src.get ⟨pos, h⟩ = 39 then .ok (sliceBytes src start pos, pos + 1)
    else scan_squote_go src start (pos + 1)
  else .error ⟨pos, "unterminated single quote"⟩
termination_by src.length - pos
decreasing_by simp_wf; omega

/-- `scan_squote`: raw content up to the next single quote, no escape
interpretation. -/
def scan_squote (l : Lexer) : Except ParseError (List Nat) × Lexer :=
  match scan_squote_go l.src l.pos l.pos with
  | .ok (content, p) => (.ok content, { l with pos := p })
  | .error e => (.error e, { l with pos := e.pos })

/-- `is_meta`: shell metacharacters, plus the NUL sentinel. -/
def is_meta (b : Nat) : Bool :=
  b = 32 ∨ b = 9 ∨ b = 10 ∨ b = 59 ∨ b = 38 ∨ b = 124 ∨ b = 40 ∨ b = 41 ∨
    b = 60 ∨ b = 62 ∨ b = 0

/-- `at_keyword`: non-consuming keyword test with word-boundary discipline. -/
def at_keyword (l : Lexer) (kw : List Nat) : Bool :=
  let e := l.pos + kw.length
  if l.src.length < e then false
  else if (l.src.drop l.pos).take kw.length ≠ kw then false
  else if kw.length = 1 ∧ is_meta (kw.getD 0 0) then true
  else decide (l.src.length ≤ e) || is_meta (l.src.getD e 0)

/-- `at_any_keyword`. -/
def at_any_keyword (l : Lexer) (kws : List (List Nat)) : Bool :=
  kws.any (fun kw => l.at_keyword kw)

end Lexer

/-- The state-mutating scanner operations, for reasoning about arbitrary
operation sequences between a `pos()` snapshot and a `set_pos` restore. -/
inductive ScanOp where
  | bumpOp : ScanOp
  | bumpNOp (n : Nat) : ScanOp
  | eatOp (b : Nat) : ScanOp
  | eatStrOp (s : List Nat) : ScanOp
  | skipBlanksOp : ScanOp
  | skipCommentOp : ScanOp
  | readNameOp : ScanOp
  | readNumberOp : ScanOp
  | scanSquoteOp : ScanOp
  | setPosOp (p : Nat) : ScanOp

/-- Effect of one scanner operation on the scanner state. -/
def applyOp (op : ScanOp) (l : Lexer) : Lexer :=
  match op with
  | .bumpOp => l.bump
  | .bumpNOp n => l.bump_n n
  | .eatOp b => (l.eat b).2
  | .eatStrOp s => (l.eat_str s).2
  | .skipBlanksOp => l.skip_blanks
  | .skipCommentOp => l.skip_comment
  | .readNameOp => l.read_name.2
  | .readNumberOp => l.read_number.2
  | .scanSquoteOp => l.scan_squote.2
  | .setPosOp p => l.set_pos p

/-- Run a sequence of scanner operations. -/
def runOps (ops : List ScanOp) (l : Lexer) : Lexer :=
  ops.foldl (fun st op => applyOp op st) l

lemma applyOp_src (op : ScanOp) (l : Lexer) : (applyOp op l).src = l.src := by
  cases op <;>
    simp only [applyOp, Lexer.bump, Lexer.bump_n, Lexer.eat, Lexer.eat_str,
      Lexer.skip_blanks, Lexer.skip_comment, Lexer.read_name, Lexer.read_number,
      Lexer.scan_squote, Lexer.set_pos]
  case eatOp b => split <;> rfl
  case eatStrOp s => split <;> rfl
  case skipCommentOp => split <;> rfl
  case readNameOp => split <;> first | rfl | (split <;> rfl)
  case scanSquoteOp => rcases Lexer.scan_squote_go l.src l.pos l.pos with ⟨c, p⟩ | e <;> rfl

lemma runOps_src (ops : List ScanOp) (l : Lexer) : (runOps ops l).src = l.src := by
  induction ops generalizing l with
  | nil => rfl
  | cons op rest ih =>
      simp only [runOps, List.foldl_cons] at *
      rw [ih (applyOp op l), applyOp_src]

/-- **C6.** Saving the cursor with `pos()`, performing any sequence of scanner
operations, and restoring with `set_pos` yields a state equal to the snapshot
(hence observationally identical for every subsequent operation): the integer
position is the scanner's only mutable state, and no operation touches the
buffer. -/
theorem c6_snapshot_restore (l : Lexer) (ops : List ScanOp) :
    (runOps ops l).set_pos l.pos = l := by
  have h := runOps_src ops l
  cases l with
  | mk src pos =>
      simp only [Lexer.set_pos]
      exact congrArg (fun s => Lexer.mk s pos) h

/-- **C7.** `peek` returns the byte at the cursor and `peek_at offset` the byte
at `cursor + offset`; at or past end-of-input both return the sentinel 0, and
on any input in which the byte 0 never occurs (NUL cannot legally appear in
shell input text) the sentinel is unambiguous: `peek = 0` exactly at
end-of-input. -/
theorem c7_peek_sentinel (l : Lexer) :
    l.peek = l.src.getD l.pos 0 ∧
    (∀ offset, l.peek_at offset = l.src.getD (l.pos + offset) 0) ∧
    ((∀ b ∈ l.src, b ≠ 0) → (l.peek = 0 ↔ l.src.length ≤ l.pos)) := by
  refine ⟨?_, fun offset => ?_, fun hno => ?_⟩
  · simp only [Lexer.peek, List.getD_eq_getElem?_getD]
    by_cases h : l.pos < l.src.length
    · rw [dif_pos h, List.getElem?_eq_getElem h]
      simp [List.get_eq_getElem]
    · have hn : l.src[l.pos]? = none := List.getElem?_eq_none (by omega)
      rw [dif_neg h, hn]
      rfl
  · simp only [Lexer.peek_at, List.getD_eq_getElem?_getD]
    by_cases h : l.pos + offset < l.src.length
    · rw [dif_pos h, List.getElem?_eq_getElem h]
      simp [List.get_eq_getElem]
    · have hn : l.src[l.pos + offset]? = none := List.getElem?_eq_none (by omega)
      rw [dif_neg h, hn]
      rfl
  · constructor
    · intro h0
      by_contra hlt
      have hp : l.pos < l.src.length := by omega
      have : l.src.get ⟨l.pos, hp⟩ = 0 := by
        simpa [Lexer.peek, hp] using h0
      exact hno _ (l.src.get_mem l.pos hp) this
    · intro h
      simp [Lexer.peek, show ¬ l.pos < l.src.length by omega]

/-- Witness for C7 at a concrete scanner state. -/
theorem c7_witness :
    Lexer.peek ⟨[104, 105], 5⟩ = 0 ↔ [104, 105].length ≤ 5 :=
  (c7_peek_sentinel ⟨[104, 105], 5⟩).2.2 (by decide)

/-- **C9.** The cursor can be pushed past the end of the buffer: `bump` and
`bump_n` increment it unconditionally; `eat 0` at end-of-input succeeds and
advances, because `peek`'s sentinel 0 compares equal to the argument; and once
the cursor exceeds the buffer length, `remaining` and `slice start` index out
of bounds (modelled as `none`, a Rust panic) instead of returning a value. -/
theorem c9_cursor_overrun (l : Lexer) (n : Nat) :
    l.bump = ⟨l.src, l.pos + 1⟩ ∧
    l.bump_n n = ⟨l.src, l.pos + n⟩ ∧
    (l.src.length ≤ l.pos → l.eat 0 = (true, ⟨l.src, l.pos + 1⟩)) ∧
    (l.src.length < l.pos → l.remaining = none ∧ ∀ start, l.slice start = none) := by
  refine ⟨rfl, rfl, fun h => ?_, fun h => ⟨?_, fun start => ?_⟩⟩
  · have hp : l.peek = 0 := by
      simp [Lexer.peek, show ¬ l.pos < l.src.length by omega]
    simp [Lexer.eat, hp]
  · simp [Lexer.remaining, show ¬ l.pos ≤ l.src.length by omega]
  · simp only [Lexer.slice]
    rw [if_neg]
    intro hc
    omega

/-- Witness for C9: a scanner over a 1-byte buffer with the cursor at 3. -/
theorem c9_witness :
    Lexer.eat ⟨[97], 3⟩ 0 = (true, ⟨[97], 4⟩) ∧ Lexer.remaining ⟨[97], 3⟩ = none := by
  have h := c9_cursor_overrun ⟨[97], 3⟩ 0
  exact ⟨h.2.2.1 (by decide), (h.2.2.2 (by decide)).1⟩

/-! ### Loop characterizations for `read_name`, `read_number`, `scan_squote` -/

lemma take_takeWhile_length (p : Nat → Bool) :
    ∀ l : List Nat, l.take (l.takeWhile p).length = l.takeWhile p := by
  intro l
  induction l with
  | nil => rfl
  | cons a t ih =>
      rw [List.takeWhile_cons]
      by_cases h : p a
      · rw [if_pos h]
        simp [List.take_succ_cons, ih]
      · rw [if_neg h]
        rfl

lemma read_number_go_eq (src : List Nat) (pos : Nat) :
    Lexer.read_number_go src pos =
      pos + ((src.drop pos).takeWhile Lexer.isDigitB).length := by
  have main : ∀ fuel p, src.length ≤ p + fuel →
      Lexer.read_number_go src p =
        p + ((src.drop p).takeWhile Lexer.isDigitB).length := by
    intro fuel
    induction fuel with
    | zero =>
        intro p h
        rw [Lexer.read_number_go, dif_neg (by omega), List.drop_eq_nil_of_le (by omega)]
        simp
    | succ n ih =>
        intro p h
        by_cases hp : p < src.length
        · rw [Lexer.read_number_go, dif_pos hp]
          simp only [List.get_eq_getElem]
          rw [List.drop_eq_getElem_cons hp]
          by_cases hd : Lexer.isDigitB src[p]
          · rw [if_pos hd, ih (p + 1) (by omega), List.takeWhile_cons_of_pos hd]
            simp only [List.length_cons]
            omega
          · rw [if_neg hd, List.takeWhile_cons_of_neg hd]
            simp
        · rw [Lexer.read_number_go, dif_neg hp, List.drop_eq_nil_of_le (by omega)]
          simp
  exact main src.length pos (by omega)

lemma read_name_go_eq (src : List Nat) (pos : Nat) :
    Lexer.read_name_go src pos =
      pos + ((src.drop pos).takeWhile Lexer.isNameCont).length := by
  have main : ∀ fuel p, src.length ≤ p + fuel →
      Lexer.read_name_go src p =
        p + ((src.drop p).takeWhile Lexer.isNameCont).length := by
    intro fuel
    induction fuel with
    | zero =>
        intro p h
        rw [Lexer.read_name_go, dif_neg (by omega), List.drop_eq_nil_of_le (by omega)]
        simp
    | succ n ih =>
        intro p h
        by_cases hp : p < src.length
        · rw [Lexer.read_name_go, dif_pos hp]
          simp only [List.get_eq_getElem]
          rw [List.drop_eq_getElem_cons hp]
          by_cases hd : Lexer.isNameCont src[p]
          · rw [if_pos hd, ih (p + 1) (by omega), List.takeWhile_cons_of_pos hd]
            simp only [List.length_cons]
            omega
          · rw [if_neg hd, List.takeWhile_cons_of_neg hd]
            simp
        · rw [Lexer.read_name_go, dif_neg hp, List.drop_eq_nil_of_le (by omega)]
          simp
  exact main src.length pos (by omega)

/-- **C8.** `read_name` consumes exactly the maximal identifier at the cursor
(ASCII letter or underscore start, then a maximal `takeWhile` run of
alphanumerics/underscores) and returns it as a slice of the input;
`read_number` consumes exactly the maximal run of ASCII digits; in each case
a non-match yields the empty slice with the cursor unmoved. -/
theorem c8_read_name_number (l : Lexer) :
    (l.read_name =
      match l.src.drop l.pos with
      | [] => ([], l)
      | c :: rest =>
          if Lexer.isNameStart c then
            (c :: rest.takeWhile Lexer.isNameCont,
             ⟨l.src, l.pos + (c :: rest.takeWhile Lexer.isNameCont).length⟩)
          else ([], l)) ∧
    l.read_number =
      ((l.src.drop l.pos).takeWhile Lexer.isDigitB,
       ⟨l.src, l.pos + ((l.src.drop l.pos).takeWhile Lexer.isDigitB).length⟩) := by
  constructor
  · by_cases hp : l.pos < l.src.length
    · have hdrop : l.src.drop l.pos = l.src[l.pos] :: l.src.drop (l.pos + 1) :=
        List.drop_eq_getElem_cons hp
      rw [hdrop]
      by_cases hs : Lexer.isNameStart l.src[l.pos]
      · simp only [hs, if_true]
        rw [Lexer.read_name, dif_pos hp]
        simp only [List.get_eq_getElem]
        rw [if_pos hs]
        have hgo := read_name_go_eq l.src (l.pos + 1)
        have hslice :
            Lexer.sliceBytes l.src l.pos (Lexer.read_name_go l.src (l.pos + 1)) =
              l.src[l.pos] ::
                (l.src.drop (l.pos + 1)).takeWhile Lexer.isNameCont := by
          rw [Lexer.sliceBytes, hgo, hdrop]
          have harith : l.pos + 1 +
              ((l.src.drop (l.pos + 1)).takeWhile Lexer.isNameCont).length - l.pos =
              ((l.src.drop (l.pos + 1)).takeWhile Lexer.isNameCont).length + 1 := by
            omega
          rw [harith, List.take_succ_cons, take_takeWhile_length]
        refine Prod.ext ?_ ?_
        · simpa using hslice
        · simp only [hgo]
          cases l with
          | mk src pos =>
              simp only [List.length_cons]
              congr 1
              omega
      · simp only [hs, if_false]
        rw [Lexer.read_name, dif_pos hp]
        simp only [List.get_eq_getElem]
        rw [if_neg hs]
        simp [Lexer.sliceBytes]
    · rw [List.drop_eq_nil_of_le (by omega)]
      rw [Lexer.read_name, dif_neg hp]
      simp [Lexer.sliceBytes]
  · rw [Lexer.read_number]
    have hgo := read_number_go_eq l.src l.pos
    refine Prod.ext ?_ ?_
    · simp only [hgo, Lexer.sliceBytes, Nat.add_sub_cancel_left]
      exact take_takeWhile_length _ _
    · simp [hgo]

lemma scan_squote_go_eq (src : List Nat) (start pos : Nat) :
    Lexer.scan_squote_go src start pos =
      (if (src.drop pos).findIdx (fun b => b == 39) < (src.drop pos).length then
        .ok (Lexer.sliceBytes src start (pos + (src.drop pos).findIdx (fun b => b == 39)),
          pos + (src.drop pos).findIdx (fun b => b == 39) + 1)
      else .error ⟨max pos src.length, "unterminated single quote"⟩) := by
  have main : ∀ fuel p, src.length ≤ p + fuel →
      Lexer.scan_squote_go src start p =
        (if (src.drop p).findIdx (fun b => b == 39) < (src.drop p).length then
          .ok (Lexer.sliceBytes src start (p + (src.drop p).findIdx (fun b => b == 39)),
            p + (src.drop p).findIdx (fun b => b == 39) + 1)
        else .error ⟨max p src.length, "unterminated single quote"⟩) := by
    intro fuel
    induction fuel with
    | zero =>
        intro p h
        rw [Lexer.scan_squote_go, dif_neg (by omega), List.drop_eq_nil_of_le (by omega)]
        simp only [List.findIdx_nil, List.length_nil, Nat.lt_irrefl, if_false]
        rw [Nat.max_eq_left (by omega)]
    | succ n ih =>
        intro p h
        by_cases hp : p < src.length
        · rw [Lexer.scan_squote_go, dif_pos hp]
          simp only [List.get_eq_getElem]
          have hdrop : src.drop p = src[p] :: src.drop (p + 1) :=
            List.drop_eq_getElem_cons hp
          rw [hdrop, List.findIdx_cons]
          by_cases hq : src[p] = 39
          · rw [if_pos hq]
            have hbq : (src[p] == 39) = true := by simp [hq]
            simp only [hbq, cond_true, List.length_cons, Nat.add_zero]
            rw [if_pos (by omega)]
          · rw [if_neg hq]
            have hbq : (src[p] == 39) = false := by simp [hq]
            simp only [hbq, cond_false, List.length_cons]
            rw [ih (p + 1) (by omega)]
            by_cases hfound :
                (src.drop (p + 1)).findIdx (fun b => b == 39) <
                  (src.drop (p + 1)).length
            · rw [if_pos hfound, if_pos (by omega)]
              have harith : p + ((src.drop (p + 1)).findIdx (fun b => b == 39) + 1) =
                  p + 1 + (src.drop (p + 1)).findIdx (fun b => b == 39) := by
                omega
              rw [harith]
            · rw [if_neg hfound, if_neg (by omega)]
              have h1 : max (p + 1) src.length = src.length := Nat.max_eq_right (by omega)
              have h2 : max p src.length = src.length := Nat.max_eq_right (by omega)
              rw [h1, h2]
        · rw [Lexer.scan_squote_go, dif_neg hp, List.drop_eq_nil_of_le (by omega)]
          simp only [List.findIdx_nil, List.length_nil, Nat.lt_irrefl, if_false]
          rw [Nat.max_eq_left (by omega)]
  exact main src.length pos (by omega)

lemma not_mem_take_findIdx (p : Nat → Bool) :
    ∀ (l : List Nat) (x : Nat), x ∈ l.take (l.findIdx p) → p x = false := by
  intro l
  induction l with
  | nil => intro x hx; simp at hx
  | cons a t ih =>
      intro x hx
      rw [List.findIdx_cons] at hx
      by_cases ha : p a
      · simp [ha] at hx
      · simp only [ha, cond_false, List.take_succ_cons, List.mem_cons] at hx
        rcases hx with rfl | hx
        · simpa using ha
        · exact ih x hx

lemma getD_findIdx_true (p : Nat → Bool) :
    ∀ l : List Nat, l.findIdx p < l.length → p (l.getD (l.findIdx p) 0) = true := by
  intro l
  induction l with
  | nil => intro h; simp at h
  | cons a t ih =>
      intro h
      rw [List.findIdx_cons]
      rw [List.findIdx_cons] at h
      by_cases ha : p a
      · simp [ha]
      · simp only [ha, cond_false] at h ⊢
        rw [List.getD_cons_succ]
        exact ih (by simpa using h)

/-- **C4.** When a single quote (39) occurs at or after the cursor, with `i`
the index (relative to the cursor) of the first one, `scan_squote` returns
`Ok` with exactly the bytes from the cursor up to but not including that
quote — raw, containing no quote, so no escape interpretation happened — and
leaves the cursor one past the closing quote.  Otherwise it returns an error,
a single value carrying a byte offset (here the end of input) and a static
descriptive message. -/
theorem c4_scan_squote (l : Lexer) :
    ((l.src.drop l.pos).findIdx (fun b => b == 39) < (l.src.drop l.pos).length →
      l.scan_squote =
        (.ok ((l.src.drop l.pos).take ((l.src.drop l.pos).findIdx (fun b => b == 39))),
         ⟨l.src, l.pos + (l.src.drop l.pos).findIdx (fun b => b == 39) + 1⟩) ∧
      (l.src.drop l.pos).getD ((l.src.drop l.pos).findIdx (fun b => b == 39)) 0 = 39 ∧
      (39 : Nat) ∉
        (l.src.drop l.pos).take ((l.src.drop l.pos).findIdx (fun b => b == 39))) ∧
    ((l.src.drop l.pos).length ≤ (l.src.drop l.pos).findIdx (fun b => b == 39) →
      l.scan_squote =
        (.error ⟨max l.pos l.src.length, "unterminated single quote"⟩,
         ⟨l.src, max l.pos l.src.length⟩)) := by
  have hgo := scan_squote_go_eq l.src l.pos l.pos
  constructor
  · intro hfound
    refine ⟨?_, ?_, ?_⟩
    · rw [Lexer.scan_squote, hgo, if_pos hfound]
      have hslice :
          Lexer.sliceBytes l.src l.pos
              (l.pos + (l.src.drop l.pos).findIdx (fun b => b == 39)) =
            (l.src.drop l.pos).take ((l.src.drop l.pos).findIdx (fun b => b == 39)) := by
        rw [Lexer.sliceBytes, Nat.add_sub_cancel_left]
      rw [hslice]
    · have := getD_findIdx_true (fun b => b == 39) (l.src.drop l.pos) hfound
      simpa using this
    · intro hmem
      have := not_mem_take_findIdx (fun b => b == 39) (l.src.drop l.pos) 39 hmem
      simp at this
  · intro hnone
    rw [Lexer.scan_squote, hgo, if_neg (by omega)]

/-- Witness for C4: scanning `ab'c` from position 0 returns content `ab` and
leaves the cursor just past the quote; scanning `ab` fails with offset 2. -/
theorem c4_witness :
    Lexer.scan_squote ⟨[97, 98, 39, 99], 0⟩ = (.ok [97, 98], ⟨[97, 98, 39, 99], 3⟩) ∧
    Lexer.scan_squote ⟨[97, 98], 0⟩ =
      (.error ⟨2, "unterminated single quote"⟩, ⟨[97, 98], 2⟩) := by
  constructor
  · exact ((c4_scan_squote ⟨[97, 98, 39, 99], 0⟩).1 (by decide)).1
  · exact (c4_scan_squote ⟨[97, 98], 0⟩).2 (by decide)

/-- Witness for C8 at concrete inputs: `FOO_1 x` reads the maximal identifier
`FOO_1`; `9a` starts with no identifier so the cursor stays put. -/
theorem c8_witness :
    Lexer.read_name ⟨[70, 79, 79, 95, 49, 32, 120], 0⟩ =
      ([70, 79, 79, 95, 49], ⟨[70, 79, 79, 95, 49, 32, 120], 5⟩) ∧
    Lexer.read_name ⟨[57, 97], 0⟩ = ([], ⟨[57, 97], 0⟩) := by
  constructor
  · exact (c8_read_name_number ⟨[70, 79, 79, 95, 49, 32, 120], 0⟩).1
  · exact (c8_read_name_number ⟨[57, 97], 0⟩).1

/-- **C5.** `at_keyword kw` is true exactly when the bytes of `kw` occur at
the cursor and either `kw` is a single self-delimiting metacharacter byte, or
the position immediately after the matched bytes is end-of-input or holds a
metacharacter; being a plain function of the state it never moves the cursor;
and `at_any_keyword kws` holds iff `at_keyword` holds for some element. -/
theorem c5_at_keyword (l : Lexer) (kw : List Nat) (kws : List (List Nat)) :
    (l.at_keyword kw = true ↔
      (l.pos + kw.length ≤ l.src.length ∧ (l.src.drop l.pos).take kw.length = kw) ∧
      ((∃ b, kw = [b] ∧ Lexer.is_meta b) ∨
       l.pos + kw.length = l.src.length ∨
       Lexer.is_meta (l.src.getD (l.pos + kw.length) 0))) ∧
    (l.at_any_keyword kws = true ↔ ∃ k ∈ kws, l.at_keyword k = true) := by
  constructor
  · by_cases h1 : l.src.length < l.pos + kw.length
    · simp only [Lexer.at_keyword, if_pos h1]
      constructor
      · intro h; cases h
      · rintro ⟨⟨hle, -⟩, -⟩
        omega
    · by_cases h2 : (l.src.drop l.pos).take kw.length = kw
      · by_cases h3 : kw.length = 1 ∧ Lexer.is_meta (kw.getD 0 0)
        · simp only [Lexer.at_keyword, if_neg h1, if_pos h3, ne_eq,
            not_true_eq_false, if_neg (show ¬ _ ≠ _ from fun hc => hc h2)]
          constructor
          · intro _
            refine ⟨⟨by omega, h2⟩, Or.inl ?_⟩
            obtain ⟨hlen, hmeta⟩ := h3
            match kw, hlen with
            | [b], _ => exact ⟨b, rfl, hmeta⟩
          · intro _
            trivial
        · simp only [Lexer.at_keyword, if_neg h1, if_neg h3, ne_eq,
            not_true_eq_false, if_neg (show ¬ _ ≠ _ from fun hc => hc h2),
            Bool.or_eq_true, decide_eq_true_eq]
          constructor
          · rintro (hle | hmeta)
            · exact ⟨⟨by omega, h2⟩, Or.inr (Or.inl (by omega))⟩
            · exact ⟨⟨by omega, h2⟩, Or.inr (Or.inr hmeta)⟩
          · rintro ⟨⟨hle, -⟩, hb | heq | hmeta⟩
            · obtain ⟨b, rfl, hm⟩ := hb
              exact absurd ⟨rfl, hm⟩ h3
            · exact Or.inl (by omega)
            · exact Or.inr hmeta
      · simp only [Lexer.at_keyword, if_neg h1, ne_eq, if_pos h2]
        constructor
        · intro h
          cases h
        · rintro ⟨⟨-, htake⟩, -⟩
          exact absurd htake h2
  · simp only [Lexer.at_any_keyword, List.any_eq_true]

/-- Witness for C5: at the start of `dones`, the keyword `done` does not match
(no word boundary follows), while at the start of `done |` it does. -/
theorem c5_witness :
    Lexer.at_keyword ⟨[100, 111, 110, 101, 115], 0⟩ [100, 111, 110, 101] = false ∧
    Lexer.at_keyword ⟨[100, 111, 110, 101, 32], 0⟩ [100, 111, 110, 101] = true := by
  constructor
  · have h := (c5_at_keyword ⟨[100, 111, 110, 101, 115], 0⟩ [100, 111, 110, 101] []).1
    refine Bool.eq_false_iff.mpr fun ht => ?_
    rcases (h.mp ht).2 with ⟨b, hb, -⟩ | heq | hmeta
    · cases hb
    · simp at heq
    · simp [Lexer.is_meta] at hmeta
  · exact ((c5_at_keyword ⟨[100, 111, 110, 101, 32], 0⟩ [100, 111, 110, 101] []).1).mpr
      ⟨⟨by decide, by decide⟩, Or.inr (Or.inr (by decide))⟩

/-! ## Environment diffing (`src/env_diff.rs`) and command escaping
(`src/passthrough.rs`)

`HashMap` iteration order is unspecified, so a snapshot's variable map is
modelled as an association list in some iteration order; lookups return the
first binding of a key. -/

/-- Variables internal to bash, never synced (deny-list, sorted by ASCII byte
order for the binary search). -/
def SKIP_VARS : List (List Nat) :=
  [asciiBytes "BASH", asciiBytes "BASHOPTS", asciiBytes "BASHPID",
   asciiBytes "BASH_ALIASES", asciiBytes "BASH_ARGC", asciiBytes "BASH_ARGV",
   asciiBytes "BASH_CMDS", asciiBytes "BASH_COMMAND",
   asciiBytes "BASH_EXECUTION_STRING", asciiBytes "BASH_LINENO",
   asciiBytes "BASH_LOADABLES_PATH", asciiBytes "BASH_REMATCH",
   asciiBytes "BASH_SOURCE", asciiBytes "BASH_SUBSHELL",
   asciiBytes "BASH_VERSINFO", asciiBytes "BASH_VERSION",
   asciiBytes "COLUMNS", asciiBytes "COMP_WORDBREAKS", asciiBytes "DIRSTACK",
   asciiBytes "EUID", asciiBytes "FUNCNAME", asciiBytes "GROUPS",
   asciiBytes "HISTCMD", asciiBytes "HISTFILE", asciiBytes "HOSTNAME",
   asciiBytes "HOSTTYPE", asciiBytes "IFS", asciiBytes "LINES",
   asciiBytes "MACHTYPE", asciiBytes "MAILCHECK", asciiBytes "OLDPWD",
   asciiBytes "OPTERR", asciiBytes "OPTIND", asciiBytes "OSTYPE",
   asciiBytes "PIPESTATUS", asciiBytes "PPID", asciiBytes "PS1",
   asciiBytes "PS2", asciiBytes "PS4", asciiBytes "PWD", asciiBytes "RANDOM",
   asciiBytes "SECONDS", asciiBytes "SHELL", asciiBytes "SHELLOPTS",
   asciiBytes "SHLVL", asciiBytes "UID", asciiBytes "_"]

/-- Lexicographic byte comparison — the `Ord` instance Rust's
`binary_search` uses on `&str`. -/
def listCmp : List Nat → List Nat → Ordering
  | [], [] => .eq
  | [], _ :: _ => .lt
  | _ :: _, [] => .gt
  | a :: as_, b :: bs =>
      if a < b then .lt else if b < a then .gt else listCmp as_ bs

/-- The deny-list as an array, as Rust's slice `binary_search` sees it. -/
def skipVarsArr : Array (List Nat) := SKIP_VARS.toArray

/-- Rust `slice::binary_search` over `[lo, hi)`: returns whether the target
was found.  The interval length `hi - lo` strictly decreases at every
recursive call, so structural recursion on a fuel counter initialized to the
array size computes the same answer as the unbounded loop. -/
def bsearchGo (a : Array (List Nat)) (t : List Nat) :
    Nat → Nat → Nat → Bool
  | 0, _, _ => false
  | fuel + 1, lo, hi =>
      if lo < hi then
        let mid := lo + (hi - lo) / 2
        match listCmp (a.getD mid []) t with
        | .lt => bsearchGo a t fuel (mid + 1) hi
        | .gt => bsearchGo a t fuel lo mid
        | .eq => true
      else false

/-- `should_skip_var`: binary search of the name in `SKIP_VARS`. -/
def should_skip_var (name : List Nat) : Bool :=
  bsearchGo skipVarsArr name skipVarsArr.size 0 skipVarsArr.size

/-- Byte classes needing no quoting in `shell_escape` (alphanumeric or one of
`/ . - _ : ~ + ,`). -/
def isSimpleByte (b : Nat) : Bool :=
  (48 ≤ b ∧ b ≤ 57) ∨ (65 ≤ b ∧ b ≤ 90) ∨ (97 ≤ b ∧ b ≤ 122) ∨
    b = 47 ∨ b = 46 ∨ b = 45 ∨ b = 95 ∨ b = 58 ∨ b = 126 ∨ b = 43 ∨ b = 44

/-- Per-byte output of the quoting loops in `shell_escape` and
`shell_escape_for_bash`: a single quote becomes `'\''`; any other byte is
pushed via `result.push(b as char)`, i.e. re-encoded as the UTF-8 bytes of
code point `b` (identical to `b` only below 0x80). -/
def escByte (b : Nat) : List Nat :=
  if b = 39 then [39, 92, 39, 39] else utf8Byte b

/-- `env_diff::shell_escape`: simple values pass through unquoted; everything
else is single-quoted with the quoting loop. -/
def shell_escape (s : List Nat) : List Nat :=
  if s.all isSimpleByte then s
  else 39 :: s.flatMap escByte ++ [39]

/-- `passthrough::shell_escape_for_bash`: always single-quotes, same loop. -/
def shell_escape_for_bash (s : List Nat) : List Nat :=
  39 :: s.flatMap escByte ++ [39]

/-- `key.ends_with("PATH")` on bytes. -/
def endsWithPATH (k : List Nat) : Bool :=
  k.drop (k.length - 4) = [80, 65, 84, 72]

/-- Rust `str::split(sep)`: splits into the (possibly empty) pieces between
separator occurrences; always at least one piece. -/
def splitByte (sep : Nat) : List Nat → List (List Nat)
  | [] => [[]]
  | b :: rest =>
      match splitByte sep rest with
      | [] => [[]]
      | g :: gs => if b = sep then [] :: g :: gs else (b :: g) :: gs

/-- Value payload of a `set -gx` command: PATH-like values containing `:` are
split on `:` and the parts joined by single spaces (unescaped); all other
values go through `shell_escape`. -/
def gx_payload (k v : List Nat) : List Nat :=
  if endsWithPATH k && v.contains 58 then List.intercalate [32] (splitByte 58 v)
  else shell_escape v

/-- A snapshot of the shell environment: named variables (association list in
`HashMap` iteration order) and a working directory. -/
structure EnvSnapshot where
  vars : List (List Nat × List Nat)
  cwd : List Nat

/-- `HashMap::get` on the association-list model. -/
def lookupVar : List (List Nat × List Nat) → List Nat → Option (List Nat)
  | [], _ => none
  | kv :: rest, k => if kv.1 = k then some kv.2 else lookupVar rest k

/-- `HashMap::contains_key`. -/
def containsKey (m : List (List Nat × List Nat)) (k : List Nat) : Bool :=
  (lookupVar m k).isSome

/-- One iteration of the new-or-changed loop of `EnvSnapshot::diff`: skip
deny-listed names, emit `set -gx key payload` when the value is new or
changed. -/
def diffVarCmd (self : EnvSnapshot) (k v : List Nat) : Option (List Nat) :=
  if should_skip_var k then none
  else
    let changed : Bool :=
      match lookupVar self.vars k with
      | some old => decide (old ≠ v)
      | none => true
    if changed then some (asciiBytes "set -gx " ++ k ++ 32 :: gx_payload k v)
    else none

/-- `EnvSnapshot::diff`: `set -gx` commands for new/changed variables (in the
`after` map's iteration order), then `set -e` commands for removed variables,
then a `cd` if the directory changed. -/
def diff (self after : EnvSnapshot) : List (List Nat) :=
  (after.vars.filterMap fun kv => diffVarCmd self kv.1 kv.2) ++
  (self.vars.filterMap fun kv =>
    if should_skip_var kv.1 then none
    else if containsKey after.vars kv.1 then none
    else some (asciiBytes "set -e " ++ kv.1)) ++
  (if after.cwd ≠ [] ∧ self.cwd ≠ after.cwd then
    [asciiBytes "cd " ++ shell_escape after.cwd]
  else [])

/-- ASCII alphanumeric or underscore: the byte class of a valid variable name
in `parse_null_separated_env`. -/
def isKeyByte (b : Nat) : Bool :=
  (48 ≤ b ∧ b ≤ 57) ∨ (65 ≤ b ∧ b ≤ 90) ∨ (97 ≤ b ∧ b ≤ 122) ∨ b = 95

/-- One entry of `env -0` output: strip leading newlines, require the entry
non-empty with an `=`, a non-empty key before the first `=` made of
alphanumerics/underscores; yields key and the text after the first `=`. -/
def validEntry (entry : List Nat) : Option (List Nat × List Nat) :=
  let e := entry.dropWhile (fun b => b == 10)
  if e = [] then none
  else
    let i := e.findIdx (fun b => b == 61)
    if i < e.length then
      let key := e.take i
      let value := e.drop (i + 1)
      if key ≠ [] ∧ key.all isKeyByte then some (key, value) else none
    else none

/-- `HashMap::insert`: later insertions of the same key overwrite. -/
def insertVar (k v : List Nat) (m : List Nat → Option (List Nat)) :
    List Nat → Option (List Nat) :=
  fun q => if q = k then some v else m q

/-- `parse_null_separated_env`, with the resulting `HashMap` modelled
extensionally as a lookup function. -/
def parse_null_separated_env (data : List Nat) : List Nat → Option (List Nat) :=
  (splitByte 0 data).foldl
    (fun m e =>
      match validEntry e with
      | some kv => insertVar kv.1 kv.2 m
      | none => m)
    (fun _ => none)

/-- Definition following C10's words, independent of `validEntry`'s
`findIdx` mechanics: an entry is kept when, after stripping leading newlines,
it is non-empty, contains `=` (61), and the text before the first `=` is a
non-empty run of alphanumerics/underscores; it then maps that key to the text
after the first `=`. -/
def specKeptEntry (entry : List Nat) : Option (List Nat × List Nat) :=
  let e := entry.dropWhile (fun b => b == 10)
  let key := e.takeWhile (fun b => !(b == 61))
  let value := (e.dropWhile (fun b => !(b == 61))).tail
  if e ≠ [] ∧ 61 ∈ e ∧ key ≠ [] ∧ key.all isKeyByte then some (key, value)
  else none

/-- Definition following C1's words: the input enclosed in single quotes with
every internal single quote replaced by `'\''` and every other byte kept
as-is. -/
def claimedEscape (s : List Nat) : List Nat :=
  39 :: (s.flatMap fun b => if b = 39 then [39, 92, 39, 39] else [b]) ++ [39]

/-! ### C1: the quoting loops corrupt non-ASCII bytes -/

/-- **C1.** The claim fails on the code: escaping is *not* the input enclosed
in single quotes with internal quotes doubled, because each non-quote byte is
pushed as `b as char` and re-encoded.  On the two UTF-8 bytes of `é`
(`[195, 169]`) both escape functions produce `'Ã©'`
(`[39, 195, 131, 194, 169, 39]`), not the claimed `'é'`
(`[39, 195, 169, 39]`): unquoting does not reproduce the input byte for byte.
On ASCII input (last conjunct, `h'i`) the code does realize the claimed
`'\''` technique. -/
theorem c1_escape_mojibake :
    shell_escape_for_bash [195, 169] = [39, 195, 131, 194, 169, 39] ∧
    shell_escape [195, 169] = [39, 195, 131, 194, 169, 39] ∧
    claimedEscape [195, 169] = [39, 195, 169, 39] ∧
    shell_escape_for_bash [195, 169] ≠ claimedEscape [195, 169] ∧
    shell_escape [195, 169] ≠ claimedEscape [195, 169] ∧
    shell_escape_for_bash [104, 39, 105] = claimedEscape [104, 39, 105] := by
  decide

/-! ### C2: deny-listed names never appear in emitted set commands -/

/-- The deny-list is strictly sorted in byte order, the precondition of the
binary search. -/
lemma skip_vars_sorted :
    (SKIP_VARS.zip SKIP_VARS.tail).all
      (fun p => listCmp p.1 p.2 == Ordering.lt) = true := by
  decide

lemma skip_vars_complete : ∀ v ∈ SKIP_VARS, should_skip_var v = true := by
  decide

lemma skip_vars_no_space : ∀ v ∈ SKIP_VARS, ¬ (32 : Nat) ∈ v := by
  decide

/-- In `name ++ ' ' ++ rest`, a space-free name is recovered uniquely. -/
lemma append_space_cancel :
    ∀ (k v r s : List Nat), (32 : Nat) ∉ k → (32 : Nat) ∉ v →
      k ++ 32 :: r = v ++ 32 :: s → k = v := by
  intro k
  induction k with
  | nil =>
      intro v r s _ hv h
      cases v with
      | nil => rfl
      | cons b v2 =>
          injection h with h1 _
          cases h1
          exact absurd (List.mem_cons_self _ _) hv
  | cons a k2 ih =>
      intro v r s hk hv h
      cases v with
      | nil =>
          injection h with h1 _
          cases h1
          exact absurd (List.mem_cons_self _ _) hk
      | cons b v2 =>
          injection h with h1 h2
          cases h1
          rw [ih v2 r s (fun hm => hk (List.mem_cons_of_mem _ hm))
            (fun hm => hv (List.mem_cons_of_mem _ hm)) h2]

lemma setE_bytes : asciiBytes "set -e " = [115, 101, 116, 32, 45, 101, 32] := by
  decide

lemma setGx_bytes :
    asciiBytes "set -gx " = [115, 101, 116, 32, 45, 103, 120, 32] := by
  decide

lemma cd_bytes : asciiBytes "cd " = [99, 100, 32] := by
  decide

/-- A `set -e` command and a `set -gx` command are never the same string
(they differ at byte index 5). -/
lemma byte5_ne (t1 t2 : List Nat) :
    ([115, 101, 116, 32, 45, 101, 32] ++ t1 : List Nat) ≠
      [115, 101, 116, 32, 45, 103, 120, 32] ++ t2 := by
  intro h
  have h5 := congrArg (fun lst => List.getD lst 5 0) h
  simp only [List.cons_append, List.nil_append, List.getD_cons_succ,
    List.getD_cons_zero] at h5
  exact absurd h5 (by decide)

lemma head_ne {a b : Nat} {t1 t2 : List Nat} (hne : a ≠ b) :
    (a :: t1 : List Nat) ≠ b :: t2 := by
  intro h
  injection h with h1 _
  exact hne h1

/-- Shape of every command `EnvSnapshot::diff` emits: a `set -gx` for a
non-deny-listed new-or-changed key of `after`, a `set -e` for a
non-deny-listed removed key of `before`, or a `cd`. -/
lemma diff_mem_shape (self after : EnvSnapshot) (cmd : List Nat)
    (h : cmd ∈ diff self after) :
    (∃ kv, kv ∈ after.vars ∧ should_skip_var kv.1 = false ∧
       lookupVar self.vars kv.1 ≠ some kv.2 ∧
       cmd = asciiBytes "set -gx " ++ kv.1 ++ 32 :: gx_payload kv.1 kv.2) ∨
    (∃ kv, kv ∈ self.vars ∧ should_skip_var kv.1 = false ∧
       containsKey after.vars kv.1 = false ∧
       cmd = asciiBytes "set -e " ++ kv.1) ∨
    cmd = asciiBytes "cd " ++ shell_escape after.cwd := by
  simp only [diff, List.mem_append] at h
  rcases h with (h | h) | h
  · left
    rw [List.mem_filterMap] at h
    obtain ⟨kv, hkv, hc⟩ := h
    rw [diffVarCmd] at hc
    by_cases hs : should_skip_var kv.1
    · rw [if_pos hs] at hc
      cases hc
    · rw [if_neg hs] at hc
      refine ⟨kv, hkv, by simpa using hs, ?_, ?_⟩
      · rcases hl : lookupVar self.vars kv.1 with _ | old
        · simp
        · simp only [hl] at hc
          intro hsome
          injection hsome with hov
          rw [hov] at hc
          simp at hc
      · rcases hl : lookupVar self.vars kv.1 with _ | old
        · simp only [hl] at hc
          injection hc with hc2
          exact hc2.symm
        · simp only [hl] at hc
          by_cases hch : old = kv.2
          · rw [hch] at hc
            simp at hc
          · rw [if_pos (by simpa using hch)] at hc
            injection hc with hc2
            exact hc2.symm
  · right; left
    rw [List.mem_filterMap] at h
    obtain ⟨kv, hkv, hc⟩ := h
    by_cases hs : should_skip_var kv.1
    · rw [if_pos hs] at hc
      cases hc
    · rw [if_neg hs] at hc
      by_cases hm : containsKey after.vars kv.1
      · rw [if_pos hm] at hc
        cases hc
      · rw [if_neg hm] at hc
        injection hc with hc2
        exact ⟨kv, hkv, by simpa using hs, by simpa using hm, hc2.symm⟩
  · right; right
    by_cases hcw : after.cwd ≠ [] ∧ self.cwd ≠ after.cwd
    · rw [if_pos hcw] at h
      simpa using h
    · rw [if_neg hcw] at h
      cases h

/-- **C2.** For every pair of snapshots whose variable names are space-free
(as every real environment key and every key admitted by
`parse_null_separated_env` is), `diff` never emits a `set -gx` or `set -e`
command naming a deny-listed variable `v ∈ SKIP_VARS` — whether `v` is
present in, absent from, or differs between the snapshots; this rests on
`should_skip_var`'s binary search answering `true` on every member of the
(sorted) `SKIP_VARS`. -/
theorem c2_no_skip_var_commands (before after : EnvSnapshot)
    (hb : ∀ kv ∈ before.vars, (32 : Nat) ∉ kv.1)
    (ha : ∀ kv ∈ after.vars, (32 : Nat) ∉ kv.1)
    (v : List Nat) (hv : v ∈ SKIP_VARS) :
    (∀ payload, asciiBytes "set -gx " ++ v ++ 32 :: payload ∉ diff before after) ∧
    asciiBytes "set -e " ++ v ∉ diff before after := by
  have hvskip : should_skip_var v = true := skip_vars_complete v hv
  have hvsp : (32 : Nat) ∉ v := skip_vars_no_space v hv
  constructor
  · intro payload hmem
    rcases diff_mem_shape before after _ hmem with
      ⟨kv, hkv, hskip, -, heq⟩ | ⟨kv, hkv, hskip, -, heq⟩ | heq
    · rw [List.append_assoc, List.append_assoc] at heq
      have hcan := List.append_cancel_left heq
      have hk := append_space_cancel kv.1 v _ _ (ha kv hkv) hvsp hcan.symm
      rw [hk, hvskip] at hskip
      cases hskip
    · rw [setE_bytes, setGx_bytes, List.append_assoc] at heq
      exact byte5_ne kv.1 (v ++ 32 :: payload) heq.symm
    · rw [cd_bytes, setGx_bytes] at heq
      simp only [List.cons_append, List.nil_append] at heq
      exact head_ne (by decide) heq.symm
  · intro hmem
    rcases diff_mem_shape before after _ hmem with
      ⟨kv, hkv, hskip, -, heq⟩ | ⟨kv, hkv, hskip, -, heq⟩ | heq
    · rw [setE_bytes, setGx_bytes, List.append_assoc] at heq
      exact byte5_ne v (kv.1 ++ 32 :: gx_payload kv.1 kv.2) heq
    · have hcan := List.append_cancel_left heq
      rw [← hcan, hvskip] at hskip
      cases hskip
    · rw [cd_bytes, setE_bytes] at heq
      simp only [List.cons_append, List.nil_append] at heq
      exact head_ne (by decide) heq.symm

/-- Witness for C2: `PWD` is deny-listed, so even though it is present before
and absent after, no `set -e PWD` is emitted. -/
theorem c2_witness :
    asciiBytes "set -e " ++ asciiBytes "PWD" ∉
      diff ⟨[(asciiBytes "PWD", asciiBytes "/x")], []⟩ ⟨[], []⟩ :=
  (c2_no_skip_var_commands ⟨[(asciiBytes "PWD", asciiBytes "/x")], []⟩ ⟨[], []⟩
    (by decide) (by decide) (asciiBytes "PWD") (by decide)).2

/-! ### C3: PATH-like values are split, and their parts are NOT escaped -/

/-- Counterexample to C3 as stated: for the new variable `PATH=a b:c` the
emitted command is `set -gx PATH a b c` — the colon-split parts are pushed
raw.  The payload is neither the shell-escaped whole value (`'a b:c'`) nor
the shell-escaped parts (`'a b' c`), so the value is *not* carried in
shell-escaped form for every variable. -/
theorem c3_counterexample :
    diff ⟨[], asciiBytes "/h"⟩
        ⟨[(asciiBytes "PATH", asciiBytes "a b:c")], asciiBytes "/h"⟩ =
      [asciiBytes "set -gx PATH a b c"] ∧
    asciiBytes "set -gx PATH a b c" ≠
      asciiBytes "set -gx PATH " ++ shell_escape (asciiBytes "a b:c") ∧
    asciiBytes "set -gx PATH a b c" ≠
      asciiBytes "set -gx PATH " ++
        List.intercalate [32] ((splitByte 58 (asciiBytes "a b:c")).map shell_escape) := by
  decide

/-- **C3 (amended).** Every `set -gx` command emitted by `diff` is
`set -gx key payload` for a new-or-changed, non-deny-listed key of `after`,
where the payload is the shell-escaped value — *except* when the key ends in
`PATH` and the value contains `:`, in which case the payload is the value
split on `:` with the parts joined by spaces, unescaped. -/
theorem c3_amended_gx_payload (self after : EnvSnapshot) (cmd : List Nat)
    (hmem : cmd ∈ diff self after)
    (hgx : ∃ rest, cmd = asciiBytes "set -gx " ++ rest) :
    ∃ kv, kv ∈ after.vars ∧ should_skip_var kv.1 = false ∧
      lookupVar self.vars kv.1 ≠ some kv.2 ∧
      cmd = asciiBytes "set -gx " ++ kv.1 ++ 32 ::
        (if endsWithPATH kv.1 && kv.2.contains 58 then
          List.intercalate [32] (splitByte 58 kv.2)
        else shell_escape kv.2) := by
  obtain ⟨rest, hrest⟩ := hgx
  rcases diff_mem_shape self after _ hmem with
    ⟨kv, hkv, hskip, hch, heq⟩ | ⟨kv, hkv, hskip, -, heq⟩ | heq
  · exact ⟨kv, hkv, hskip, hch, by rw [heq, gx_payload]⟩
  · rw [hrest] at heq
    rw [setE_bytes, setGx_bytes] at heq
    exact absurd heq.symm (byte5_ne kv.1 rest)
  · rw [hrest] at heq
    rw [cd_bytes, setGx_bytes] at heq
    simp only [List.cons_append, List.nil_append] at heq
    exact absurd heq (head_ne (by decide))

/-- Witness for the amended C3 at the counterexample input. -/
theorem c3_amended_witness :
    ∃ kv, kv ∈ [(asciiBytes "PATH", asciiBytes "a b:c")] ∧
      should_skip_var kv.1 = false ∧
      lookupVar [] kv.1 ≠ some kv.2 ∧
      asciiBytes "set -gx PATH a b c" = asciiBytes "set -gx " ++ kv.1 ++ 32 ::
        (if endsWithPATH kv.1 && kv.2.contains 58 then
          List.intercalate [32] (splitByte 58 kv.2)
        else shell_escape kv.2) :=
  c3_amended_gx_payload ⟨[], asciiBytes "/h"⟩
    ⟨[(asciiBytes "PATH", asciiBytes "a b:c")], asciiBytes "/h"⟩
    (asciiBytes "set -gx PATH a b c") (by decide)
    ⟨asciiBytes "PATH a b c", by decide⟩

/-! ### C10: `parse_null_separated_env` keeps exactly the well-formed entries,
last occurrence of a key winning -/

lemma take_findIdx_eq_takeWhile (p : Nat → Bool) :
    ∀ l : List Nat, l.take (l.findIdx p) = l.takeWhile (fun b => !(p b)) := by
  intro l
  induction l with
  | nil => rfl
  | cons a t ih =>
      rw [List.findIdx_cons]
      by_cases h : p a
      · simp [h]
      · simp only [h, cond_false, List.take_succ_cons, List.takeWhile_cons]
        simp only [h, Bool.not_false, if_true]
        rw [ih]

lemma drop_findIdx_succ_eq (p : Nat → Bool) :
    ∀ l : List Nat, l.drop (l.findIdx p + 1) = (l.dropWhile (fun b => !(p b))).tail := by
  intro l
  induction l with
  | nil => rfl
  | cons a t ih =>
      rw [List.findIdx_cons]
      by_cases h : p a
      · simp [h, List.dropWhile_cons]
      · simp only [h, cond_false, List.dropWhile_cons, Bool.not_false, if_true]
        exact ih

lemma validEntry_eq_specKept : ∀ entry, validEntry entry = specKeptEntry entry := by
  intro entry
  simp only [validEntry, specKeptEntry]
  by_cases h0 : entry.dropWhile (fun b => b == 10) = []
  · simp [h0]
  · rw [if_neg h0]
    by_cases hm : (61 : Nat) ∈ entry.dropWhile (fun b => b == 10)
    · have hlt :
          (entry.dropWhile (fun b => b == 10)).findIdx (fun b => b == 61) <
            (entry.dropWhile (fun b => b == 10)).length := by
        rw [List.findIdx_lt_length]
        exact ⟨61, hm, by simp⟩
      rw [if_pos hlt, take_findIdx_eq_takeWhile, drop_findIdx_succ_eq]
      by_cases hcond :
          (entry.dropWhile (fun b => b == 10)).takeWhile (fun b => !(b == 61)) ≠ [] ∧
          ((entry.dropWhile (fun b => b == 10)).takeWhile
            (fun b => !(b == 61))).all isKeyByte
      · rw [if_pos hcond, if_pos ⟨h0, hm, hcond.1, hcond.2⟩]
      · rw [if_neg hcond, if_neg (fun hc => hcond ⟨hc.2.2.1, hc.2.2.2⟩)]
    · have hge :
          ¬ (entry.dropWhile (fun b => b == 10)).findIdx (fun b => b == 61) <
            (entry.dropWhile (fun b => b == 10)).length := by
        rw [List.findIdx_lt_length]
        rintro ⟨x, hx, hpx⟩
        simp only [beq_iff_eq] at hpx
        exact hm (hpx ▸ hx)
      rw [if_neg hge, if_neg (fun hc => hm hc.2.1)]

lemma foldl_step_filterMap (es : List (List Nat)) (m : List Nat → Option (List Nat)) :
    es.foldl
        (fun m e =>
          match validEntry e with
          | some kv => insertVar kv.1 kv.2 m
          | none => m) m =
      (es.filterMap validEntry).foldl (fun m kv => insertVar kv.1 kv.2 m) m := by
  induction es generalizing m with
  | nil => rfl
  | cons e es ih =>
      rw [List.foldl_cons, List.filterMap_cons]
      rcases hv : validEntry e with _ | kv
      · simp only [hv]
        exact ih m
      · simp only [hv, List.foldl_cons]
        exact ih (insertVar kv.1 kv.2 m)

lemma foldl_insert_lookup (ps : List (List Nat × List Nat))
    (m : List Nat → Option (List Nat)) (k : List Nat) :
    (ps.foldl (fun m kv => insertVar kv.1 kv.2 m) m) k =
      match (ps.filter (fun p => p.1 == k)).getLast? with
      | some p => some p.2
      | none => m k := by
  induction ps generalizing m with
  | nil => rfl
  | cons p ps ih =>
      rw [List.foldl_cons, ih, List.filter_cons]
      rcases hf : ps.filter (fun q => q.1 == k) with _ | ⟨a, l2⟩
      · simp only [hf]
        by_cases hpk : p.1 = k
        · simp only [hpk, beq_self_eq_true, if_true, List.getLast?_singleton,
            insertVar, if_pos rfl]
          rfl
        · have : (p.1 == k) = false := by simpa using hpk
          simp only [this, Bool.false_eq_true, if_false, insertVar]
          rw [if_neg (fun hc => hpk hc.symm)]
      · simp only [hf]
        obtain ⟨q, hq⟩ : ∃ q, (a :: l2).getLast? = some q := by
          cases hl2 : (a :: l2).getLast? with
          | none => exact absurd (List.getLast?_eq_none_iff.mp hl2) (by simp)
          | some q => exact ⟨q, rfl⟩
        by_cases hpk : (p.1 == k) = true
        · rw [if_pos hpk, List.getLast?_cons_cons, hq]
        · rw [if_neg hpk, hq]

/-- `none`/`some` reading of the last kept binding. -/
lemma match_getLast_map (o : Option (List Nat × List Nat)) :
    (match o with
      | some p => some p.2
      | none => (none : Option (List Nat))) = o.map (fun p => p.2) := by
  cases o <;> rfl

/-- **C10.** `parse_null_separated_env` yields exactly the map of the
well-formed NUL-separated entries: an entry is kept iff, after stripping
leading newlines, it is non-empty, contains `=`, and its key (the text before
the first `=`) is non-empty and all ASCII alphanumerics/underscores; each
kept entry binds the key to the text after the first `=`, and for every key
the lookup returns the value of the *last* kept entry with that key (`none`
if there is none). -/
theorem c10_parse_null_env (data k : List Nat) :
    parse_null_separated_env data k =
      ((((splitByte 0 data).filterMap specKeptEntry).filter
          (fun p => p.1 == k)).getLast?).map (fun p => p.2) := by
  rw [parse_null_separated_env, foldl_step_filterMap,
    show validEntry = specKeptEntry from funext validEntry_eq_specKept,
    foldl_insert_lookup]
  exact match_getLast_map _

end Reef
